import Mathlib

/-!
Verification of the Petri-net analyzer (petri_net_analyzer.py).

The development shallowly embeds the analyzer's core: the 1-safe net model
(enabling, firing, dead markings), the explicit BFS reachability procedure,
the symbolic BDD reachability engine (transition relation, image iteration
to fixpoint), the BDD membership oracle, the two ILP clients (deadlock
feasibility and linear optimization), and the PNML element parsers together
with the structural consistency check.

Modelling conventions:
- a net with `P` places and `T` transitions is a `PNet P T`; the pre/post
  matrices are total functions (absent entries are zero, as in
  `build_matrices`);
- markings are integer vectors `Fin P → ℤ` (Python int tuples);
- a BDD over the current-state variables is modelled semantically by its
  set of satisfying assignments, a `Finset (Fin P → Bool)`; the library
  operations used by the engine (`apply`, `exist`, `let`, renaming,
  comparison with the constant true/false) become the corresponding
  operations on these sets of assignments;
- the engine's `while` loops become fuelled saturation iterations, run for
  enough steps to reach the fixpoint the loop stops at.
-/

namespace PetriSpec

/-- A 1-safe Petri net as `PetriNet` holds it after `build_matrices`:
`pre[t][p]` / `post[t][p]` weights (0 when no arc) and the initial marking. -/
structure PNet (P T : ℕ) where
  pre : Fin T → Fin P → ℕ
  post : Fin T → Fin P → ℕ
  m0 : Fin P → ℤ

/-- A marking: the tuple of per-place token counts (Python ints). -/
abbrev Marking (P : ℕ) := Fin P → ℤ

/-- An assignment to the current-state BDD variables, one Bool per place. -/
abbrev BMarking (P : ℕ) := Fin P → Bool

variable {P T : ℕ}

/-- `PetriNet.is_transition_enabled`: every place with positive pre-weight
holds at least that many tokens. -/
def is_transition_enabled (n : PNet P T) (m : Marking P) (t : Fin T) : Bool :=
  decide (∀ p, 0 < n.pre t p → (n.pre t p : ℤ) ≤ m p)

/-- `PetriNet.fire_transition`: subtract the pre-weights (where positive),
then add the post-weights (where positive). No check of any kind. -/
def fire_transition (n : PNet P T) (m : Marking P) (t : Fin T) : Marking P :=
  fun p =>
    let m1 : ℤ := if 0 < n.pre t p then m p - n.pre t p else m p
    if 0 < n.post t p then m1 + n.post t p else m1

/-- `PetriNet.is_dead_marking`: no transition is enabled. -/
def is_dead_marking (n : PNet P T) (m : Marking P) : Bool :=
  decide (∀ t, is_transition_enabled n m t = false)

/-- The two pre/post loops of `fire_transition` amount to the usual
firing formula `m - pre + post`, componentwise. -/
theorem fire_transition_eq (n : PNet P T) (m : Marking P) (t : Fin T) (p : Fin P) :
    fire_transition n m t p = m p - n.pre t p + n.post t p := by
  unfold fire_transition
  by_cases h1 : 0 < n.pre t p <;> by_cases h2 : 0 < n.post t p <;>
    simp [h1, h2, Nat.eq_zero_of_not_pos]

/-! ### Generic saturation iteration

Both engines grow a set of states by repeatedly adding all successors of
the states found so far, stopping when nothing new appears (the BFS queue
drains; the BDD image adds no new satisfying assignment).  `satIter` is
that loop with explicit fuel, `SatReach` the least set it saturates to. -/

/-- One round of the saturation loop: keep the set and add every successor. -/
def satStep {α : Type} [DecidableEq α] (f : α → Finset α) (S : Finset α) : Finset α :=
  S ∪ S.biUnion f

/-- The saturation loop, run `k` times from the start state `a0`. -/
def satIter {α : Type} [DecidableEq α] (f : α → Finset α) (a0 : α) : ℕ → Finset α
  | 0 => {a0}
  | k + 1 => satStep f (satIter f a0 k)

/-- The least set containing `a0` and closed under the successor map `f`:
what the loop computes when it stops. -/
inductive SatReach {α : Type} (f : α → Finset α) (a0 : α) : α → Prop
  | init : SatReach f a0 a0
  | step : ∀ a b, SatReach f a0 a → b ∈ f a → SatReach f a0 b

theorem subset_satStep {α : Type} [DecidableEq α] (f : α → Finset α) (S : Finset α) :
    S ⊆ satStep f S :=
  Finset.subset_union_left

theorem satStep_mono {α : Type} [DecidableEq α] (f : α → Finset α) {S S' : Finset α}
    (h : S ⊆ S') : satStep f S ⊆ satStep f S' :=
  Finset.union_subset_union h (Finset.biUnion_subset_biUnion_of_subset_left f h)

theorem satIter_succ_subset {α : Type} [DecidableEq α] (f : α → Finset α) (a0 : α) (k : ℕ) :
    satIter f a0 k ⊆ satIter f a0 (k + 1) :=
  subset_satStep f _

theorem satIter_mono {α : Type} [DecidableEq α] (f : α → Finset α) (a0 : α) {j k : ℕ}
    (h : j ≤ k) : satIter f a0 j ⊆ satIter f a0 k := by
  induction k with
  | zero => simp [Nat.le_zero.mp h]
  | succ k ih =>
    rcases Nat.lt_or_ge j (k + 1) with hc | hc
    · exact (ih (Nat.lt_succ_iff.mp hc)).trans (satIter_succ_subset f a0 k)
    · have : j = k + 1 := le_antisymm h hc
      simp [this]

theorem satIter_stable {α : Type} [DecidableEq α] (f : α → Finset α) (a0 : α) {k : ℕ}
    (h : satIter f a0 (k + 1) = satIter f a0 k) (j : ℕ) :
    satIter f a0 (k + j) = satIter f a0 k := by
  induction j with
  | zero => rfl
  | succ j ih =>
    have : satIter f a0 (k + (j + 1)) = satStep f (satIter f a0 (k + j)) := rfl
    rw [this, ih]
    exact h

theorem satIter_card_grow {α : Type} [DecidableEq α] (f : α → Finset α) (a0 : α) (k : ℕ)
    (h : ∀ i < k, satIter f a0 (i + 1) ≠ satIter f a0 i) :
    k + 1 ≤ (satIter f a0 k).card := by
  induction k with
  | zero => simp [satIter]
  | succ k ih =>
    have hk := ih (fun i hi => h i (Nat.lt_succ_of_lt hi))
    have hne := h k (Nat.lt_succ_self k)
    have hlt : (satIter f a0 k).card < (satIter f a0 (k + 1)).card :=
      Finset.card_lt_card (lt_of_le_of_ne (satIter_succ_subset f a0 k)
        (fun he => hne he.symm))
    omega

/-- If the whole iteration stays inside a finite set `B`, running the loop
for `B.card` rounds reaches the fixpoint. -/
theorem satIter_fix {α : Type} [DecidableEq α] (f : α → Finset α) (a0 : α)
    (B : Finset α) (hB : ∀ j, satIter f a0 j ⊆ B) :
    satIter f a0 (B.card + 1) = satIter f a0 B.card := by
  by_cases hex : ∃ i, i < B.card ∧ satIter f a0 (i + 1) = satIter f a0 i
  · obtain ⟨i, hi, he⟩ := hex
    have h1 : B.card + 1 = i + (B.card + 1 - i) := by omega
    have h2 : B.card = i + (B.card - i) := by omega
    rw [h1, satIter_stable f a0 he, h2, satIter_stable f a0 he]
  · push_neg at hex
    have := satIter_card_grow f a0 B.card (fun i hi => hex i hi)
    have := Finset.card_le_card (hB B.card)
    omega

theorem mem_satIter_satReach {α : Type} [DecidableEq α] (f : α → Finset α) (a0 : α)
    {k : ℕ} {a : α} (h : a ∈ satIter f a0 k) : SatReach f a0 a := by
  induction k generalizing a with
  | zero =>
    have : a = a0 := by simpa [satIter] using h
    exact this ▸ SatReach.init
  | succ k ih =>
    rcases Finset.mem_union.mp h with h1 | h1
    · exact ih h1
    · obtain ⟨x, hx, hax⟩ := Finset.mem_biUnion.mp h1
      exact SatReach.step x a (ih hx) hax

theorem satReach_mem_satIter {α : Type} [DecidableEq α] (f : α → Finset α) (a0 : α)
    (B : Finset α) (hB : ∀ j, satIter f a0 j ⊆ B) {a : α}
    (h : SatReach f a0 a) : a ∈ satIter f a0 B.card := by
  induction h with
  | init => exact satIter_mono f a0 (Nat.zero_le _) (by simp [satIter])
  | step x y hx hy ih =>
    have : y ∈ satIter f a0 (B.card + 1) :=
      Finset.mem_union_right _ (Finset.mem_biUnion.mpr ⟨x, ih, hy⟩)
    rwa [satIter_fix f a0 B hB] at this

/-- Membership in the saturated iteration is exactly `SatReach`. -/
theorem satIter_eq_satReach {α : Type} [DecidableEq α] (f : α → Finset α) (a0 : α)
    (B : Finset α) (hB : ∀ j, satIter f a0 j ⊆ B) (a : α) :
    a ∈ satIter f a0 B.card ↔ SatReach f a0 a :=
  ⟨mem_satIter_satReach f a0, satReach_mem_satIter f a0 B hB⟩

/-! ### Explicit reachability (Task 2, `explicit_reachability`) -/

/-- The markings obtained from `m` by firing one enabled transition: what
the BFS inner loop enqueues while scanning `transition_ids`. -/
def enabled_successors (n : PNet P T) (m : Marking P) : Finset (Marking P) :=
  (Finset.univ.filter (fun t => is_transition_enabled n m t = true)).image
    (fire_transition n m)

/-- The BFS of `explicit_reachability`, as set saturation with fuel: the
set of discovered markings after `fuel` rounds of the loop. -/
def explicit_reachability (n : PNet P T) (fuel : ℕ) : Finset (Marking P) :=
  satIter (enabled_successors n) n.m0 fuel

/-- The reachable set `R(N)`: least set containing the initial marking and
closed under firing enabled transitions — what the BFS computes when its
queue drains. -/
inductive ReachE (n : PNet P T) : Marking P → Prop
  | init : ReachE n n.m0
  | step : ∀ m t, ReachE n m → is_transition_enabled n m t = true →
      ReachE n (fire_transition n m t)

theorem reachE_iff_satReach (n : PNet P T) (m : Marking P) :
    ReachE n m ↔ SatReach (enabled_successors n) n.m0 m := by
  constructor
  · intro h
    induction h with
    | init => exact SatReach.init
    | step m t _ hen ih =>
      refine SatReach.step m _ ih ?_
      exact Finset.mem_image.mpr ⟨t, Finset.mem_filter.mpr ⟨Finset.mem_univ t, hen⟩, rfl⟩
  · intro h
    induction h with
    | init => exact ReachE.init
    | step a b _ hb ih =>
      obtain ⟨t, ht, rfl⟩ := Finset.mem_image.mp hb
      exact ReachE.step a t ih (Finset.mem_filter.mp ht).2

/-! ### Symbolic reachability (Task 3, `symbolic_reachability_bdd`) -/

/-- The satisfying assignment of `build_initial_marking_bdd`: the variable
of place `p` is true exactly when the initial marking puts a token there
(the code tests `initial_marking[i] == 1`). -/
def initB (n : PNet P T) : BMarking P := fun p => decide (n.m0 p = 1)

/-- `build_initial_marking_bdd` as the set of satisfying assignments.
With no places the clause list is empty and `clauses[0]` fails, so the
result is `none` in that case. -/
def build_initial_marking_bdd (n : PNet P T) : Option (Finset (BMarking P)) :=
  if P = 0 then none else some {initB n}

/-- The per-place update clause of `build_transition_relation_bdd`, in the
order the code tests the weight cases. -/
def updateClauseB (n : PNet P T) (t : Fin T) (p : Fin P) (b bN : BMarking P) : Bool :=
  if 0 < n.pre t p ∧ n.post t p = 0 then b p && !(bN p)
  else if n.pre t p = 0 ∧ 0 < n.post t p then !(b p) && bN p
  else if 0 < n.pre t p ∧ 0 < n.post t p then b p && bN p
  else (b p && bN p) || (!(b p) && !(bN p))

/-- The enabling conjunct of `build_transition_relation_bdd`: the current
variable of every pre-place with positive weight. -/
def enabledClauseB (n : PNet P T) (t : Fin T) (b : BMarking P) : Bool :=
  decide (∀ p, 0 < n.pre t p → b p = true)

/-- `build_transition_relation_bdd`: the union over all transitions of
(enabling ∧ all update clauses), as a relation between current and next
assignments. With no transitions it is the constant false. -/
def transition_relation (n : PNet P T) (b bN : BMarking P) : Bool :=
  decide (∃ t, enabledClauseB n t b = true ∧ ∀ p, updateClauseB n t p b bN = true)

/-- The image step of the fixpoint loop: conjoin the reach BDD with the
transition relation, existentially quantify the current variables, rename
primed to unprimed — the assignments reachable in one step from `b`. -/
def bdd_successors (n : PNet P T) (b : BMarking P) : Finset (BMarking P) :=
  Finset.univ.filter (fun bN => transition_relation n b bN = true)

/-- `symbolic_reachability_bdd`: iterate `Reach ∨ Post(Reach)` from the
initial BDD until no new satisfying assignment appears.  The loop always
stabilizes within `2^P` rounds (the number of assignments), so running the
saturation for `Finset.univ.card` rounds yields exactly the BDD the loop
returns.  `none` mirrors the failure on nets with no places. -/
def symbolic_reachability_bdd (n : PNet P T) : Option (Finset (BMarking P)) :=
  if P = 0 then none
  else some (satIter (bdd_successors n) (initB n) (Finset.univ : Finset (BMarking P)).card)

/-- The least set of assignments containing the initial one and closed
under the symbolic transition relation: the fixpoint of the loop. -/
inductive ReachS (n : PNet P T) : BMarking P → Prop
  | init : ReachS n (initB n)
  | step : ∀ b bN, ReachS n b → transition_relation n b bN = true → ReachS n bN

theorem reachS_iff_satReach (n : PNet P T) (b : BMarking P) :
    ReachS n b ↔ SatReach (bdd_successors n) (initB n) b := by
  constructor
  · intro h
    induction h with
    | init => exact SatReach.init
    | step x y _ hr ih =>
      exact SatReach.step x y ih (Finset.mem_filter.mpr ⟨Finset.mem_univ y, hr⟩)
  · intro h
    induction h with
    | init => exact ReachS.init
    | step x y _ hy ih =>
      exact ReachS.step x y ih (Finset.mem_filter.mp hy).2

/-- What the symbolic engine returns, when it returns: membership in the
computed BDD is exactly symbolic reachability. -/
theorem symbolic_reachability_bdd_mem (n : PNet P T) (S : Finset (BMarking P))
    (hS : symbolic_reachability_bdd n = some S) (b : BMarking P) :
    b ∈ S ↔ ReachS n b := by
  unfold symbolic_reachability_bdd at hS
  split at hS
  · exact absurd hS (by simp)
  · have hSe : S = satIter (bdd_successors n) (initB n)
        (Finset.univ : Finset (BMarking P)).card := by
      exact (Option.some_inj.mp hS).symm
    rw [hSe, satIter_eq_satReach (bdd_successors n) (initB n) Finset.univ
      (fun _ => Finset.subset_univ _), reachS_iff_satReach]

/-! ### Enumerating BDD assignments as markings -/

/-- The marking a satisfying assignment stands for (`int(assignment)`). -/
def toMark (b : BMarking P) : Marking P := fun p => if b p then 1 else 0

/-- The assignment a marking stands for (token count equal to one). -/
def toBool (m : Marking P) : BMarking P := fun p => decide (m p = 1)

theorem toBool_toMark (b : BMarking P) : toBool (toMark b) = b := by
  funext p
  by_cases h : b p <;> simp [toBool, toMark, h]

theorem toMark_toBool {m : Marking P} (hm : ∀ p, m p = 0 ∨ m p = 1) :
    toMark (toBool m) = m := by
  funext p
  rcases hm p with h | h <;> simp [toBool, toMark, h]

/-- Every symbolically reachable assignment denotes an explicitly reachable
marking, for binary arc weights and a binary initial marking. -/
theorem reachS_to_reachE (n : PNet P T)
    (hpre : ∀ t p, n.pre t p ≤ 1) (hpost : ∀ t p, n.post t p ≤ 1)
    (hm0 : ∀ p, n.m0 p = 0 ∨ n.m0 p = 1) :
    ∀ b, ReachS n b → ReachE n (toMark b) := by
  intro b hb
  induction hb with
  | init =>
    have h0 : toMark (initB n) = n.m0 := by
      funext p
      rcases hm0 p with h | h <;> simp [toMark, initB, h]
    exact h0 ▸ ReachE.init
  | step b bN _ htr ih =>
    simp only [transition_relation, decide_eq_true_eq] at htr
    obtain ⟨t, hen, hupd⟩ := htr
    simp only [enabledClauseB, decide_eq_true_eq] at hen
    have henM : is_transition_enabled n (toMark b) t = true := by
      simp only [is_transition_enabled, decide_eq_true_eq]
      intro p hp
      have hb1 : b p = true := hen p hp
      have : n.pre t p = 1 := le_antisymm (hpre t p) hp
      simp [toMark, hb1, this]
    have hfire : fire_transition n (toMark b) t = toMark bN := by
      funext p
      rw [fire_transition_eq]
      have hu := hupd p
      unfold updateClauseB at hu
      split_ifs at hu with h1 h2 h3
      · obtain ⟨hbp, hbn⟩ := Bool.and_eq_true_iff.mp hu
        have hp1 : n.pre t p = 1 := le_antisymm (hpre t p) h1.1
        have hbn' : bN p = false := by simpa using hbn
        simp [toMark, hbp, hbn', hp1, h1.2]
      · obtain ⟨hbp, hbn⟩ := Bool.and_eq_true_iff.mp hu
        have hbp' : b p = false := by simpa using hbp
        have hq1 : n.post t p = 1 := le_antisymm (hpost t p) h2.2
        simp [toMark, hbp', hbn, hq1, h2.1]
      · obtain ⟨hbp, hbn⟩ := Bool.and_eq_true_iff.mp hu
        have hp1 : n.pre t p = 1 := le_antisymm (hpre t p) h3.1
        have hq1 : n.post t p = 1 := le_antisymm (hpost t p) h3.2
        simp [toMark, hbp, hbn, hp1, hq1]
      · have hp0 : n.pre t p = 0 := by omega
        have hq0 : n.post t p = 0 := by omega
        have heq : bN p = b p := by
          rcases Bool.or_eq_true_iff.mp hu with h | h
          · obtain ⟨ha, hb'⟩ := Bool.and_eq_true_iff.mp h
            rw [ha, hb']
          · obtain ⟨ha, hb'⟩ := Bool.and_eq_true_iff.mp h
            simp only [Bool.not_eq_true'] at ha hb'
            rw [ha, hb']
        simp [toMark, hp0, hq0, heq]
    exact hfire ▸ ReachE.step (toMark b) t ih henM

/-- Every explicitly reachable marking of a 1-safe net with binary arc
weights denotes a symbolically reachable assignment. -/
theorem reachE_to_reachS (n : PNet P T)
    (hpre : ∀ t p, n.pre t p ≤ 1) (hpost : ∀ t p, n.post t p ≤ 1)
    (hsafe : ∀ m, ReachE n m → ∀ p, m p = 0 ∨ m p = 1) :
    ∀ m, ReachE n m → ReachS n (toBool m) := by
  intro m hm
  induction hm with
  | init => exact ReachS.init
  | step m t hm hen ih =>
    refine ReachS.step (toBool m) _ ih ?_
    simp only [is_transition_enabled, decide_eq_true_eq] at hen
    have hmbin := hsafe m hm
    have hfbin := hsafe _ (by
      refine ReachE.step m t hm ?_
      simp only [is_transition_enabled, decide_eq_true_eq]
      exact hen)
    have hmp1 : ∀ p, 0 < n.pre t p → m p = 1 := by
      intro p hp
      have h1 : (1 : ℤ) ≤ m p := by
        have := hen p hp
        have : (1 : ℤ) ≤ (n.pre t p : ℤ) := by exact_mod_cast hp
        linarith [hen p hp]
      rcases hmbin p with h | h <;> omega
    simp only [transition_relation, decide_eq_true_eq]
    refine ⟨t, ?_, ?_⟩
    · simp only [enabledClauseB, decide_eq_true_eq]
      intro p hp
      simp [toBool, hmp1 p hp]
    · intro p
      unfold updateClauseB
      have hfp := fire_transition_eq n m t p
      split_ifs with h1 h2 h3
      · have hp1 : n.pre t p = 1 := le_antisymm (hpre t p) h1.1
        have hm1 : m p = 1 := hmp1 p h1.1
        have : fire_transition n m t p = 0 := by rw [hfp, hm1, hp1, h1.2]; norm_num
        simp [toBool, hm1, this]
      · have hq1 : n.post t p = 1 := le_antisymm (hpost t p) h2.2
        have hfv : fire_transition n m t p = m p + 1 := by
          rw [hfp, h2.1, hq1]; push_cast; ring
        have hm0' : m p = 0 := by
          rcases hfbin p with h | h <;> rcases hmbin p with h' | h' <;> omega
        have hf1 : fire_transition n m t p = 1 := by omega
        simp [toBool, hm0', hf1]
      · have hp1 : n.pre t p = 1 := le_antisymm (hpre t p) h3.1
        have hq1 : n.post t p = 1 := le_antisymm (hpost t p) h3.2
        have hm1 : m p = 1 := hmp1 p h3.1
        have hf1 : fire_transition n m t p = 1 := by
          rw [hfp, hm1, hp1, hq1]; norm_num
        simp [toBool, hm1, hf1]
      · have hp0 : n.pre t p = 0 := by omega
        have hq0 : n.post t p = 0 := by omega
        have hfv : fire_transition n m t p = m p := by
          rw [hfp, hp0, hq0]; push_cast; ring
        simp only [toBool, hfv]
        by_cases h : m p = 1 <;> simp [h]

/-! ### Reachability oracle (`is_marking_reachable_bdd`) -/

/-- `is_marking_reachable_bdd`: substitute `x_i := bool(marking[i])` for
every current variable and test whether the residual BDD is the constant
true.  Substituting all variables of a BDD over the current variables
leaves a constant, and that constant is true exactly when the substituted
assignment satisfies the BDD, i.e. belongs to its set of satisfying
assignments.  Python `bool` of an int is true exactly on nonzero values. -/
def is_marking_reachable_bdd (S : Finset (BMarking P)) (m : Marking P) : Bool :=
  decide ((fun p => decide (m p ≠ 0)) ∈ S)

/-! ### ILP clients (Tasks 4 and 5)

The ILP layer (pulp + CBC) appears through the candidate it returns: `none`
when the program is infeasible, `some cand` for the 0/1 optimum it found.
Theorems about the clients constrain that candidate exactly as the solver
contract does (feasibility, optimality). -/

/-- The objective value `c^T M` used by the optimization client. -/
def objective_value (c : Fin P → ℤ) (m : Marking P) : ℤ := ∑ p, c p * m p

/-- The dead-marking constraint of `deadlock_detection_ilp` for one
transition: over the places with positive pre-weight, the sum of
`1 - M_p` is at least one.  The code adds it only when that place set is
nonempty. -/
def dead_constraint (n : PNet P T) (t : Fin T) (b : BMarking P) : Bool :=
  decide (1 ≤ ∑ p ∈ Finset.univ.filter (fun p => 0 < n.pre t p), (1 - toMark b p))

/-- The feasible region of the deadlock ILP: every transition whose
pre-place set is nonempty satisfies its dead-marking constraint. -/
def ilp_dead_feasible (n : PNet P T) (b : BMarking P) : Bool :=
  decide (∀ t, (Finset.univ.filter (fun p => 0 < n.pre t p)).Nonempty →
    dead_constraint n t b = true)

/-- `deadlock_detection_ilp`: solve the dead-marking ILP once; if a
candidate comes back and a BDD is available, return the candidate when the
oracle accepts it and `None` otherwise; with no BDD, return `None`. -/
def deadlock_detection_ilp (n : PNet P T) (solver : Option (BMarking P))
    (bddResult : Option (Finset (BMarking P))) : Option (Marking P) :=
  match solver with
  | none => none
  | some cand =>
    match bddResult with
    | some S =>
      if is_marking_reachable_bdd S (toMark cand) = true then some (toMark cand)
      else none
    | none => none

/-- `deadlock_detection`: delegates to the ILP; the explicit
`reachable_markings` argument is kept for backward compatibility and never
read. -/
def deadlock_detection (n : PNet P T) (reachableMarkings : Option (Finset (Marking P)))
    (solver : Option (BMarking P)) (bddResult : Option (Finset (BMarking P))) :
    Option (Marking P) :=
  deadlock_detection_ilp n solver bddResult

/-- `optimize_reachable_markings_ilp`: maximize `c^T M` over the full 0/1
cube once; if a candidate comes back and a BDD is available, return the
candidate and its value when the oracle accepts it and `None` otherwise;
with no BDD, return `None`. -/
def optimize_reachable_markings_ilp (n : PNet P T) (c : Fin P → ℤ)
    (solver : Option (BMarking P)) (bddResult : Option (Finset (BMarking P))) :
    Option (Marking P × ℤ) :=
  match solver with
  | none => none
  | some cand =>
    match bddResult with
    | some S =>
      if is_marking_reachable_bdd S (toMark cand) = true then
        some (toMark cand, objective_value c (toMark cand))
      else none
    | none => none

/-- `optimize_reachable_markings`: delegates to the ILP; the explicit
`reachable_markings` argument is kept for backward compatibility and never
read. -/
def optimize_reachable_markings (n : PNet P T) (c : Fin P → ℤ)
    (reachableMarkings : Option (Finset (Marking P)))
    (solver : Option (BMarking P)) (bddResult : Option (Finset (BMarking P))) :
    Option (Marking P × ℤ) :=
  optimize_reachable_markings_ilp n c solver bddResult

/-! ### PNML parsing (Task 1, `parse_pnml` and `verify_consistency`)

The XML layer is abstracted to the attribute/child data each parse loop
reads.  A missing attribute is `none`; a text payload that `int()` rejects
is `some none`, an integer `k` is `some (some k)`; an absent node (or one
with empty text, which the code treats the same way) is `none`. -/

/-- The data `parse_pnml` reads from one `place` element. -/
structure RawPlace where
  id : Option String
  initialMarking : Option (Option ℤ)

/-- The data `parse_pnml` reads from one `transition` element. -/
structure RawTransition where
  id : Option String

/-- The data `parse_pnml` reads from one `arc` element. -/
structure RawArc where
  id : Option String
  source : Option String
  target : Option String
  inscription : Option (Option ℤ)

/-- An arc as stored on the net after parsing. -/
structure PArc where
  id : String
  source : String
  target : String
  weight : ℤ
deriving DecidableEq

/-- The body of the place parse loop: missing id and invalid or
out-of-range initial markings raise; otherwise the place and its initial
count (default 0) are recorded. -/
def parse_place (p : RawPlace) : Except String (String × ℤ) :=
  match p.id with
  | none => .error "Place missing id attribute"
  | some pid =>
    match p.initialMarking with
    | none => .ok (pid, 0)
    | some none => .error ("Invalid initial marking for place " ++ pid)
    | some (some k) =>
      if k < 0 ∨ 1 < k then .error ("Invalid initial marking for place " ++ pid)
      else .ok (pid, k)

/-- The body of the transition parse loop: only the id is required. -/
def parse_transition (t : RawTransition) : Except String String :=
  match t.id with
  | none => .error "Transition missing id attribute"
  | some tid => .ok tid

/-- The body of the arc parse loop: id, source and target are required and
the inscription, when present, must be an integer at least 1 (default 1).
The endpoints are recorded as raw strings, unresolved. -/
def parse_arc (a : RawArc) : Except String PArc :=
  match a.id, a.source, a.target with
  | some aid, some s, some tg =>
    (match a.inscription with
    | none => .ok ⟨aid, s, tg, 1⟩
    | some none => .error ("Invalid weight for arc " ++ aid)
    | some (some w) =>
      if w < 1 then .error ("Invalid weight for arc " ++ aid)
      else .ok ⟨aid, s, tg, w⟩)
  | _, _, _ => .error "Arc missing required attributes: id, source, or target"

/-- A parse loop over a list of elements: the first failure aborts the
whole parse, as the first uncaught `ValueError` does. -/
def mapE {α β : Type} (f : α → Except String β) : List α → Except String (List β)
  | [] => .ok []
  | x :: xs =>
    match f x with
    | .error e => .error e
    | .ok y =>
      match mapE f xs with
      | .error e => .error e
      | .ok ys => .ok (y :: ys)

/-- Insertion into a Python dict keyed by id: a repeated key overwrites the
stored value and adds no new key. -/
def dictInsert {α : Type} (l : List (String × α)) (k : String) (v : α) :
    List (String × α) :=
  if l.any (fun kv => kv.1 = k) then
    l.map (fun kv => if kv.1 = k then (k, v) else kv)
  else l ++ [(k, v)]

/-- The `pn.places` dict after the place loop. -/
def buildPlacesDict (ps : List (String × ℤ)) : List (String × ℤ) :=
  ps.foldl (fun acc kv => dictInsert acc kv.1 kv.2) []

/-- The `pn.transitions` dict keys after the transition loop. -/
def buildTransKeys (ts : List String) : List String :=
  ts.foldl (fun acc k => if acc.contains k then acc else acc ++ [k]) []

/-- The net object `parse_pnml` returns: the id-keyed dicts, the id lists
in declaration order, and the arc list. -/
structure ParsedNet where
  places : List (String × ℤ)
  place_ids : List String
  transitions : List String
  transition_ids : List String
  arcs : List PArc
deriving DecidableEq

/-- `verify_consistency`: collect the inconsistencies (arc endpoints that
resolve to no node, arcs between two places or two transitions, duplicated
ids among the dict keys) and report whether none was found.  The result is
printed and returned, nothing is raised. -/
def verify_consistency (pn : ParsedNet) : Bool :=
  (pn.arcs.all (fun a =>
    ((pn.places.map Prod.fst).contains a.source
        || pn.transitions.contains a.source)
    && ((pn.places.map Prod.fst).contains a.target
        || pn.transitions.contains a.target)
    && !((pn.places.map Prod.fst).contains a.source
        && (pn.places.map Prod.fst).contains a.target)
    && !(pn.transitions.contains a.source && pn.transitions.contains a.target)))
  && decide (pn.places.length = (pn.places.map Prod.fst).dedup.length)
  && decide (pn.transitions.length = pn.transitions.dedup.length)

/-- The raw document: the element lists below the `net` node, in document
order; `none` at the call site stands for a file with no `net` element. -/
structure RawNetDoc where
  places : List RawPlace
  transitions : List RawTransition
  arcs : List RawArc

/-- `parse_pnml`: parse the three element kinds in order, aborting on the
first failure; then run `verify_consistency`, whose Boolean result the
code discards, and return the net regardless. -/
def parse_pnml : Option RawNetDoc → Except String ParsedNet
  | none => .error "No net element found in PNML file"
  | some raw =>
    match mapE parse_place raw.places with
    | .error e => .error e
    | .ok ps =>
      match mapE parse_transition raw.transitions with
      | .error e => .error e
      | .ok ts =>
        match mapE parse_arc raw.arcs with
        | .error e => .error e
        | .ok arcs =>
          let pn : ParsedNet :=
            ⟨buildPlacesDict ps, ps.map Prod.fst, buildTransKeys ts, ts, arcs⟩
          let _ := verify_consistency pn
          .ok pn

/-! ### Concrete nets used as inputs -/

/-- Two places `a, b`, one transition `t` with `pre = {a}`, `post = {b}`,
initial marking `(1, 0)` — the unreachable-dead-marking scenario. -/
def netAB : PNet 2 1 :=
  ⟨fun _ p => if p = 0 then 1 else 0,
   fun _ p => if p = 1 then 1 else 0,
   fun p => if p = 0 then 1 else 0⟩

/-- The marking `(0, 1)` of `netAB`: reachable and dead. -/
def mAB01 : Marking 2 := fun p => if p = 1 then 1 else 0

/-- One place, no transitions, one token. -/
def netOne : PNet 1 0 := ⟨fun t => t.elim0, fun t => t.elim0, fun _ => 1⟩

/-- One place, one transition with a pre-arc of weight 2, one token: the
transition is never enabled, so the net is 1-safe. -/
def netW2 : PNet 1 1 := ⟨fun _ _ => 2, fun _ _ => 0, fun _ => 1⟩

/-- One place, one isolated transition (no arcs at all). -/
def netIso : PNet 1 1 := ⟨fun _ _ => 0, fun _ _ => 0, fun _ => 0⟩

/-- One place, one transition producing into it without consuming, one
token: firing it overflows 1-safety. -/
def netOv : PNet 1 1 := ⟨fun _ _ => 0, fun _ _ => 1, fun _ => 1⟩

/-- The reach BDD the symbolic engine computes for `netOne`. -/
def symOne : Finset (BMarking 1) := (symbolic_reachability_bdd netOne).getD ∅

theorem netOne_reach_eq : ∀ m, ReachE netOne m → m = netOne.m0 := by
  intro m h
  induction h with
  | init => rfl
  | step m t _ _ _ => exact t.elim0

theorem netW2_reach_eq : ∀ m, ReachE netW2 m → m = netW2.m0 := by
  intro m h
  induction h with
  | init => rfl
  | step m t _ hen ih =>
    rw [ih] at hen
    have hfalse : ∀ t0 : Fin 1, is_transition_enabled netW2 netW2.m0 t0 = false := by
      decide
    rw [hfalse t] at hen
    exact absurd hen (by simp)

theorem reachE_netAB_m01 : ReachE netAB mAB01 := by
  have hf : fire_transition netAB netAB.m0 0 = mAB01 := by decide
  have h := ReachE.step netAB.m0 0 ReachE.init (by decide)
  rwa [hf] at h

/-! ### Claim C1 -/

/-- C1 (amended): for every 1-safe net whose arc weights are all binary
and for which the symbolic engine returns a reach BDD (it fails on nets
with no places), the set of markings obtained by enumerating that BDD
over the current-state variables equals the reachable set the explicit
BFS computes. -/
theorem C1_bdd_reach_equals_explicit (n : PNet P T) (S : Finset (BMarking P))
    (hpre : ∀ t p, n.pre t p ≤ 1) (hpost : ∀ t p, n.post t p ≤ 1)
    (hsafe : ∀ m, ReachE n m → ∀ p, m p = 0 ∨ m p = 1)
    (hS : symbolic_reachability_bdd n = some S) (m : Marking P) :
    m ∈ Finset.image toMark S ↔ ReachE n m := by
  constructor
  · intro h
    obtain ⟨b, hb, rfl⟩ := Finset.mem_image.mp h
    exact reachS_to_reachE n hpre hpost (hsafe n.m0 ReachE.init) b
      ((symbolic_reachability_bdd_mem n S hS b).mp hb)
  · intro h
    refine Finset.mem_image.mpr ⟨toBool m, ?_, toMark_toBool (hsafe m h)⟩
    exact (symbolic_reachability_bdd_mem n S hS (toBool m)).mpr
      (reachE_to_reachS n hpre hpost hsafe m h)

/-- C1 witness: the one-place net with no transitions satisfies every
hypothesis, the engine returns a BDD, and enumeration agrees with BFS at
the initial marking. -/
theorem C1_witness :
    (∀ t p, netOne.pre t p ≤ 1) ∧ (∀ t p, netOne.post t p ≤ 1)
    ∧ (∀ m, ReachE netOne m → ∀ p, m p = 0 ∨ m p = 1)
    ∧ symbolic_reachability_bdd netOne = some symOne
    ∧ ((fun _ => (1 : ℤ)) ∈ Finset.image toMark symOne ↔ ReachE netOne (fun _ => 1)) :=
  ⟨by decide, by decide,
   fun m hm p => by rw [netOne_reach_eq m hm]; exact Or.inr rfl,
   by decide,
   C1_bdd_reach_equals_explicit netOne symOne (by decide) (by decide)
     (fun m hm p => by rw [netOne_reach_eq m hm]; exact Or.inr rfl)
     (by decide) (fun _ => 1)⟩

/-- C1 counterexample: `netW2` is 1-safe (its only transition, guarded by
a weight-2 pre-arc, never fires explicitly), yet the symbolic engine,
which reads any positive pre-weight as "one token suffices", reaches the
empty marking, which BFS does not. -/
theorem C1_counterexample :
    (∀ m, ReachE netW2 m → ∀ p, m p = 0 ∨ m p = 1)
    ∧ (symbolic_reachability_bdd netW2).isSome = true
    ∧ (fun _ => (0 : ℤ)) ∈ Finset.image toMark ((symbolic_reachability_bdd netW2).getD ∅)
    ∧ ¬ ReachE netW2 (fun _ => (0 : ℤ)) := by
  refine ⟨fun m hm p => by rw [netW2_reach_eq m hm]; exact Or.inr rfl,
    by decide, by decide, fun h => ?_⟩
  have h0 := congrFun (netW2_reach_eq _ h) 0
  norm_num [netW2] at h0

/-! ### Claim C2 -/

/-- C2 (code behaviour at the failing input): on `netAB` the dead-marking
ILP is feasible at the candidate `(0, 0)`; with that candidate and the
computed reach BDD, `deadlock_detection_ilp` returns `None` — no cut is
added, no re-solve happens — although the reachable dead marking `(0, 1)`
exists.  The procedure therefore does not return some marking iff the
reachable set contains a dead one. -/
theorem C2_unreachable_candidate_returns_none :
    ilp_dead_feasible netAB (fun _ => false) = true
    ∧ deadlock_detection_ilp netAB (some (fun _ => false))
        (symbolic_reachability_bdd netAB) = none
    ∧ ReachE netAB mAB01 ∧ is_dead_marking netAB mAB01 = true :=
  ⟨by decide, by decide, reachE_netAB_m01, by decide⟩

/-! ### Claim C3 -/

/-- The all-ones objective over the two places of `netAB`. -/
def cOne : Fin 2 → ℤ := fun _ => 1

/-- C3 (code behaviour at the failing input): with the all-ones objective
on `netAB`, the unconstrained 0/1 optimum is uniquely `(1, 1)`; that
candidate is unreachable, and `optimize_reachable_markings_ilp` returns
`None` — no no-good cut, no restart — although the reachable set is
non-empty (so the claimed iff fails and no optimal reachable marking is
produced). -/
theorem C3_unreachable_optimum_returns_none :
    (∀ cand : BMarking 2,
      (∀ b : BMarking 2,
        objective_value cOne (toMark b) ≤ objective_value cOne (toMark cand)) →
      cand = fun _ => true)
    ∧ optimize_reachable_markings_ilp netAB cOne (some (fun _ => true))
        (symbolic_reachability_bdd netAB) = none
    ∧ ReachE netAB netAB.m0 :=
  ⟨by decide, by decide, ReachE.init⟩

/-! ### Claim C4 -/

/-- The linear constraint of one transition holds at a 0/1 point exactly
when some pre-place with positive weight carries no token. -/
theorem dead_constraint_iff (n : PNet P T) (t : Fin T) (b : BMarking P) :
    dead_constraint n t b = true ↔ ∃ p, 0 < n.pre t p ∧ b p = false := by
  unfold dead_constraint
  rw [decide_eq_true_eq]
  constructor
  · intro h
    by_contra hc
    push_neg at hc
    have hzero : ∀ p ∈ Finset.univ.filter (fun p => 0 < n.pre t p),
        (1 - toMark b p) = 0 := by
      intro p hp
      have hbt : b p = true := by
        have := hc p (Finset.mem_filter.mp hp).2
        exact eq_true_of_ne_false this
      simp [toMark, hbt]
    rw [Finset.sum_congr rfl hzero] at h
    simp at h
  · rintro ⟨p, hp, hbp⟩
    have hmem : p ∈ Finset.univ.filter (fun q => 0 < n.pre t q) :=
      Finset.mem_filter.mpr ⟨Finset.mem_univ p, hp⟩
    have hnonneg : ∀ q ∈ Finset.univ.filter (fun q => 0 < n.pre t q),
        (0 : ℤ) ≤ 1 - toMark b q := by
      intro q _
      by_cases h : b q <;> simp [toMark, h]
    have hle := Finset.single_le_sum hnonneg hmem
    rw [show (1 - toMark b p) = 1 by simp [toMark, hbp]] at hle
    exact hle

/-- C4 (amended): over nets in which every transition has at least one
pre-place and all pre-weights are binary, the feasible region of the
deadlock ILP is exactly the set of dead markings in `{0,1}^P`. -/
theorem C4_feasible_iff_dead (n : PNet P T)
    (hpre1 : ∀ t p, n.pre t p ≤ 1) (hnz : ∀ t, ∃ p, 0 < n.pre t p)
    (b : BMarking P) :
    ilp_dead_feasible n b = true ↔ is_dead_marking n (toMark b) = true := by
  unfold ilp_dead_feasible is_dead_marking
  rw [decide_eq_true_eq, decide_eq_true_eq]
  constructor
  · intro h t
    obtain ⟨p0, hp0⟩ := hnz t
    have hne : (Finset.univ.filter (fun p => 0 < n.pre t p)).Nonempty :=
      ⟨p0, Finset.mem_filter.mpr ⟨Finset.mem_univ p0, hp0⟩⟩
    obtain ⟨p, hp, hbp⟩ := (dead_constraint_iff n t b).mp (h t hne)
    rw [Bool.eq_false_iff]
    intro hen
    simp only [is_transition_enabled, decide_eq_true_eq] at hen
    have := hen p hp
    have hp1 : n.pre t p = 1 := le_antisymm (hpre1 t p) hp
    rw [hp1] at this
    simp [toMark, hbp] at this
  · intro h t hne
    rw [dead_constraint_iff]
    have hen := h t
    simp only [is_transition_enabled, decide_eq_false_iff_not, decide_eq_true_eq] at hen
    push_neg at hen
    obtain ⟨p, hp, hlt⟩ := hen
    refine ⟨p, hp, ?_⟩
    by_contra hbt
    have hbt' : b p = true := eq_true_of_ne_false hbt
    have hp1 : n.pre t p = 1 := le_antisymm (hpre1 t p) hp
    rw [hp1] at hlt
    simp [toMark, hbt'] at hlt

/-- C4 witness: on `netAB` (one transition, one pre-place, weight 1) the
equivalence holds at the empty marking. -/
theorem C4_witness :
    (∀ t p, netAB.pre t p ≤ 1) ∧ (∀ t, ∃ p, 0 < netAB.pre t p)
    ∧ (ilp_dead_feasible netAB (fun _ => false) = true
        ↔ is_dead_marking netAB (toMark (fun _ => false)) = true) :=
  ⟨by decide, by decide,
   C4_feasible_iff_dead netAB (by decide) (by decide) (fun _ => false)⟩

/-- C4 counterexample: the claim fails in both directions it covers.  On
`netIso` (a transition with no pre-places) the ILP gets no constraint, so
the empty marking is feasible although the always-enabled transition makes
no marking dead; on `netW2` (pre-weight 2) the marked place makes the
marking dead yet the constraint `1 - M_p ≥ 1` cuts it off. -/
theorem C4_counterexample :
    (ilp_dead_feasible netIso (fun _ => false) = true
      ∧ is_dead_marking netIso (toMark (fun _ => false)) = false)
    ∧ (ilp_dead_feasible netW2 (fun _ => true) = false
      ∧ is_dead_marking netW2 (toMark (fun _ => true)) = true) := by
  decide

/-! ### Claim C5 -/

/-- C5 (amended): `fire_transition` performs no rejection of any kind: for
every marking and transition — enabled or not, 1-safe or not — it returns
the marking `m - pre + post` componentwise, with no failure signalled. -/
theorem C5_fire_never_rejects (n : PNet P T) (m : Marking P) (t : Fin T) :
    ∀ p, fire_transition n m t p = m p - n.pre t p + n.post t p :=
  fun p => fire_transition_eq n m t p

/-- C5 counterexample: on `netOv` the (enabled) firing pushes the marked
place to two tokens; `fire_transition` returns that overflowing marking
instead of rejecting the firing. -/
theorem C5_counterexample :
    is_transition_enabled netOv (fun _ => (1 : ℤ)) 0 = true
    ∧ fire_transition netOv (fun _ => (1 : ℤ)) 0 0 = 2 := by
  decide

/-! ### Claim C6 -/

/-- C6: for every 0/1 marking `m`, the oracle — substituting
`x_i := bool(m[i])` into the reach BDD and testing the residual against
the constant true — answers true exactly when `m` is one of the markings
the BDD's satisfying assignments enumerate to. -/
theorem C6_oracle_iff_membership (S : Finset (BMarking P)) (m : Marking P)
    (hm : ∀ p, m p = 0 ∨ m p = 1) :
    is_marking_reachable_bdd S m = true ↔ m ∈ Finset.image toMark S := by
  have hassign : (fun p => decide (m p ≠ 0)) = toBool m := by
    funext p
    rcases hm p with h | h <;> simp [toBool, h]
  unfold is_marking_reachable_bdd
  rw [hassign, decide_eq_true_eq]
  constructor
  · intro h
    exact Finset.mem_image.mpr ⟨toBool m, h, toMark_toBool hm⟩
  · intro h
    obtain ⟨b, hb, rfl⟩ := Finset.mem_image.mp h
    rwa [toBool_toMark]

/-- C6 witness: a concrete one-place BDD and the marking with one token. -/
theorem C6_witness :
    (∀ p : Fin 1, (fun _ => (1 : ℤ)) p = 0 ∨ (fun _ => (1 : ℤ)) p = 1)
    ∧ (is_marking_reachable_bdd ({fun _ => true} : Finset (BMarking 1))
        (fun _ => (1 : ℤ)) = true
      ↔ (fun _ => (1 : ℤ)) ∈
          Finset.image toMark ({fun _ => true} : Finset (BMarking 1))) :=
  ⟨by decide,
   C6_oracle_iff_membership ({fun _ => true} : Finset (BMarking 1))
     (fun _ => (1 : ℤ)) (by decide)⟩

/-! ### Claim C8 -/

/-- C8: for every marking with non-negative token counts (all markings of
the data model are 0/1 vectors), `is_transition_enabled` answers true
exactly when `m[p] ≥ pre[t][p]` for every place `p`; and a transition with
no pre-places is enabled at every marking. -/
theorem C8_enabled_iff (n : PNet P T) (m : Marking P) (t : Fin T)
    (hm : ∀ p, 0 ≤ m p) :
    (is_transition_enabled n m t = true ↔ ∀ p, (n.pre t p : ℤ) ≤ m p)
    ∧ ((∀ p, n.pre t p = 0) → is_transition_enabled n m t = true) := by
  constructor
  · simp only [is_transition_enabled, decide_eq_true_eq]
    constructor
    · intro h p
      by_cases hp : 0 < n.pre t p
      · exact h p hp
      · have h0 : n.pre t p = 0 := by omega
        rw [h0]
        exact_mod_cast hm p
    · intro h p _
      exact h p
  · intro h
    simp only [is_transition_enabled, decide_eq_true_eq]
    intro p hp
    rw [h p] at hp
    exact absurd hp (by simp)

/-- C8 witness: the initial marking of `netAB` and its transition. -/
theorem C8_witness :
    (∀ p, 0 ≤ netAB.m0 p)
    ∧ ((is_transition_enabled netAB netAB.m0 0 = true
        ↔ ∀ p, (netAB.pre 0 p : ℤ) ≤ netAB.m0 p)
      ∧ ((∀ p, netAB.pre 0 p = 0) → is_transition_enabled netAB netAB.m0 0 = true)) :=
  ⟨by decide, C8_enabled_iff netAB netAB.m0 0 (by decide)⟩

/-! ### Claim C9 -/

/-- C9: under the precondition that `t` is enabled at `m`, firing returns
the marking `m - pre + post` componentwise.  The embedding is pure, so the
argument marking is left unchanged by construction. -/
theorem C9_fire_formula (n : PNet P T) (m : Marking P) (t : Fin T)
    (hen : is_transition_enabled n m t = true) :
    ∀ p, fire_transition n m t p = m p - n.pre t p + n.post t p :=
  fun p => fire_transition_eq n m t p

/-- C9 witness: the enabled firing of `netAB` from its initial marking. -/
theorem C9_witness :
    is_transition_enabled netAB netAB.m0 0 = true
    ∧ fire_transition netAB netAB.m0 0 0
        = netAB.m0 0 - netAB.pre 0 0 + netAB.post 0 0 :=
  ⟨by decide, C9_fire_formula netAB netAB.m0 0 (by decide) 0⟩

/-! ### Claim C10 -/

/-- C10: when the symbolic reach-set argument is `None`, both ILP clients
return `None` even when the solver offers a candidate and a reachable dead
marking exists, and the explicit reachable-markings argument of the
wrappers is never consulted (the result does not depend on it). -/
theorem C10_none_bdd_returns_none (n : PNet P T) (c : Fin P → ℤ)
    (cand : BMarking P) (solver : Option (BMarking P))
    (hdead : ∃ m, ReachE n m ∧ is_dead_marking n m = true) :
    deadlock_detection_ilp n (some cand) none = none
    ∧ optimize_reachable_markings_ilp n c (some cand) none = none
    ∧ (∀ rm rm', deadlock_detection n rm solver none
        = deadlock_detection n rm' solver none)
    ∧ (∀ rm rm', optimize_reachable_markings n c rm solver none
        = optimize_reachable_markings n c rm' solver none) :=
  ⟨rfl, rfl, fun _ _ => rfl, fun _ _ => rfl⟩

/-- C10 witness: `netAB` has the reachable dead marking `(0, 1)`, yet with
`bdd_result = None` both clients return `None` whatever candidate the
solver found. -/
theorem C10_witness :
    (∃ m, ReachE netAB m ∧ is_dead_marking netAB m = true)
    ∧ deadlock_detection_ilp netAB (some (fun _ => false)) none = none
    ∧ optimize_reachable_markings_ilp netAB cOne (some (fun _ => false)) none = none
    ∧ (∀ rm rm', deadlock_detection netAB rm (some (fun _ => false)) none
        = deadlock_detection netAB rm' (some (fun _ => false)) none)
    ∧ (∀ rm rm', optimize_reachable_markings netAB cOne rm (some (fun _ => false)) none
        = optimize_reachable_markings netAB cOne rm' (some (fun _ => false)) none) :=
  ⟨⟨mAB01, reachE_netAB_m01, by decide⟩,
   C10_none_bdd_returns_none netAB cOne (fun _ => false) (some (fun _ => false))
     ⟨mAB01, reachE_netAB_m01, by decide⟩⟩

/-! ### Claim C7 -/

/-- A parse loop succeeds exactly when every element parses. -/
theorem mapE_ok_iff {α β : Type} (f : α → Except String β) (xs : List α) :
    (∃ ys, mapE f xs = .ok ys) ↔ ∀ x ∈ xs, ∃ y, f x = .ok y := by
  induction xs with
  | nil =>
    constructor
    · intro _ x hx
      exact absurd hx (List.not_mem_nil x)
    · intro _
      exact ⟨[], rfl⟩
  | cons x xs ih =>
    constructor
    · rintro ⟨ys, hys⟩ z hz
      unfold mapE at hys
      split at hys
      · exact absurd hys (by simp)
      rename_i y hfx
      split at hys
      · exact absurd hys (by simp)
      rename_i ys' hrest
      rcases List.mem_cons.mp hz with rfl | hz
      · exact ⟨y, hfx⟩
      · exact (ih.mp ⟨ys', hrest⟩) z hz
    · intro h
      obtain ⟨y, hy⟩ := h x (List.mem_cons_self x xs)
      obtain ⟨ys, hys⟩ := ih.mpr (fun z hz => h z (List.mem_cons_of_mem x hz))
      refine ⟨y :: ys, ?_⟩
      unfold mapE
      rw [hy, hys]

/-- C7 (amended): parsing fails exactly on element-level defects (missing
ids or attributes, invalid initial markings, invalid arc weights); the
structural defects `verify_consistency` detects — arc endpoints that
resolve to no declared node of the opposite kind, non-bipartite arcs — do
not make parsing fail: the check's Boolean result is discarded and the net
is returned anyway. -/
theorem C7_parse_aborts_iff_element_defect (raw : RawNetDoc) :
    (∃ pn, parse_pnml (some raw) = .ok pn) ↔
      ((∀ p ∈ raw.places, ∃ r, parse_place p = .ok r)
       ∧ (∀ t ∈ raw.transitions, ∃ r, parse_transition t = .ok r)
       ∧ (∀ a ∈ raw.arcs, ∃ r, parse_arc a = .ok r)) := by
  constructor
  · rintro ⟨pn, hpn⟩
    simp only [parse_pnml] at hpn
    split at hpn
    · exact absurd hpn (by simp)
    rename_i ps hps
    split at hpn
    · exact absurd hpn (by simp)
    rename_i ts hts
    split at hpn
    · exact absurd hpn (by simp)
    rename_i arcs harcs
    exact ⟨(mapE_ok_iff parse_place raw.places).mp ⟨ps, hps⟩,
      (mapE_ok_iff parse_transition raw.transitions).mp ⟨ts, hts⟩,
      (mapE_ok_iff parse_arc raw.arcs).mp ⟨arcs, harcs⟩⟩
  · rintro ⟨hp, ht, ha⟩
    obtain ⟨ps, hps⟩ := (mapE_ok_iff parse_place raw.places).mpr hp
    obtain ⟨ts, hts⟩ := (mapE_ok_iff parse_transition raw.transitions).mpr ht
    obtain ⟨arcs, harcs⟩ := (mapE_ok_iff parse_arc raw.arcs).mpr ha
    refine ⟨⟨buildPlacesDict ps, ps.map Prod.fst, buildTransKeys ts, ts, arcs⟩, ?_⟩
    simp only [parse_pnml]
    rw [hps, hts, harcs]

/-- A document whose only arc targets the undeclared node `ghost`. -/
def badDoc : RawNetDoc :=
  ⟨[⟨some "p1", some (some 1)⟩], [⟨some "t1"⟩],
   [⟨some "a1", some "p1", some "ghost", none⟩]⟩

/-- The net `parse_pnml` returns for `badDoc`. -/
def badPN : ParsedNet :=
  ⟨[("p1", 1)], ["p1"], ["t1"], ["t1"], [⟨"a1", "p1", "ghost", 1⟩]⟩

/-- C7 counterexample: the consistency check detects the dangling arc
target (`verify_consistency` is false), yet parsing does not fail — the
net is returned and analysis would proceed on it. -/
theorem C7_counterexample :
    parse_pnml (some badDoc) = .ok badPN ∧ verify_consistency badPN = false :=
  ⟨rfl, by decide⟩

end PetriSpec
